import Mathlib

/-!
Verification of the bolt sidecar / bolt-boost core against its specification.

The Rust sources are shallowly embedded:
* `src/bolt-boost/src/constraints.rs` — the constraints cache (`ConstraintsCache`),
  its conflict detector, insertion, and pruning operations.
* `src/bolt-sidecar/src/client/constraints_client.rs` — the relay client
  (`register_validators`, `get_header_with_proofs`), modelled as pure functions of
  the relay's response.
* `src/bolt-sidecar/src/api/commitments/server.rs` — the commitments API handler
  (`request_inclusion`), modelled as a function of the reply-channel outcome.

Machine integers are `Nat` (no arithmetic overflows occur in the embedded code);
raw transaction bytes are `List Nat`; fallible operations return `Except`;
the `HashMap<u64, Vec<_>>` is an association list with unique keys maintained by
construction. External decoding (EIP-2718) is an explicit function parameter,
since its implementation lives outside the embedded core.
-/

set_option autoImplicit false

namespace Bolt

/-- Raw encoded transaction bytes (`Bytes` in the Rust source). -/
abbrev Tx := List Nat

/-- Modelled from the spec: a constraints message (bolt-boost `types.rs` is not in
the embedded sources) is "list of raw transactions, slot, top-of-block flag,
delegator public key". `conflicts_with` reads only `top` and `transactions`. -/
structure ConstraintsMessage where
  pubkey : Nat
  slot : Nat
  top : Bool
  transactions : List Tx
deriving DecidableEq

/-- Abstract EIP-2718 decode error (`alloy::eips::eip2718::Eip2718Error`). -/
abbrev Eip2718Error := Nat

/-- Modelled from the spec: the admitted, decoded form stored in the cache keeps
the original message plus, per transaction, its hash and hash-tree root. -/
structure ConstraintsWithProofData where
  message : ConstraintsMessage
  proof_data : List (Nat × Nat)
deriving DecidableEq

/-- `Conflict` from `constraints.rs`. -/
inductive Conflict where
  | topOfBlock
  | duplicateTransaction
deriving DecidableEq

/-- `Error` from `constraints.rs`. -/
inductive CacheError where
  | conflict (c : Conflict)
  | decode (e : Eip2718Error)
deriving DecidableEq

/-- The cache map `HashMap<u64, Vec<ConstraintsWithProofData>>`, as an association
list whose keys are unique in every reachable state. -/
abbrev Cache := List (Nat × List ConstraintsWithProofData)

/-- `HashMap::get` on the slot key. -/
def cacheGet : Cache → Nat → Option (List ConstraintsWithProofData)
  | [], _ => none
  | kv :: rest, s => if kv.1 = s then some kv.2 else cacheGet rest s

/-- The write phase of `ConstraintsCache::insert`: `get_mut(&slot)` + `push` when
the slot is present, `insert(slot, vec![v])` otherwise. -/
def cachePush : Cache → Nat → ConstraintsWithProofData → Cache
  | [], s, v => [(s, [v])]
  | kv :: rest, s, v =>
    if kv.1 = s then (kv.1, kv.2 ++ [v]) :: rest else kv :: cachePush rest s v

/-- `HashMap::remove`'s effect on the map: drop the entry for the key. -/
def cacheErase (c : Cache) (s : Nat) : Cache :=
  c.filter (fun kv => decide (kv.1 ≠ s))

/-- The conflict check run against one saved entry, in source order: the
top-of-block test first, then the incoming-transaction duplicate scan. -/
def entryConflict (constraints : ConstraintsMessage) (saved : ConstraintsWithProofData) :
    Option Conflict :=
  if constraints.top && saved.message.top then
    some Conflict.topOfBlock
  else if constraints.transactions.any
      (fun tx => saved.message.transactions.any (fun existing => tx == existing)) then
    some Conflict.duplicateTransaction
  else
    none

/-- `ConstraintsCache::conflicts_with`: scan the saved entries for the slot in
order and return the first conflict found. -/
def conflicts_with (cache : Cache) (slot : Nat) (constraints : ConstraintsMessage) :
    Option Conflict :=
  match cacheGet cache slot with
  | none => none
  | some saved_constraints => saved_constraints.findSome? (entryConflict constraints)

/-- Decode every raw transaction in order, failing on the first decode error
(the `Vec` collection inside `ConstraintsWithProofData::try_from`). -/
def decodeTxs (decode : Tx → Except Eip2718Error (Nat × Nat)) :
    List Tx → Except Eip2718Error (List (Nat × Nat))
  | [] => Except.ok []
  | t :: ts =>
    match decode t with
    | Except.error e => Except.error e
    | Except.ok pd =>
      match decodeTxs decode ts with
      | Except.error e => Except.error e
      | Except.ok pds => Except.ok (pd :: pds)

/-- Modelled from the spec: `ConstraintsWithProofData::try_from` (bolt-boost
`types.rs` is not in the embedded sources) decodes every raw transaction into
its hash and hash-tree root, keeping the original message; any decode failure
fails the conversion. -/
def tryFromMessage (decode : Tx → Except Eip2718Error (Nat × Nat))
    (constraints : ConstraintsMessage) : Except Eip2718Error ConstraintsWithProofData :=
  match decodeTxs decode constraints.transactions with
  | Except.error e => Except.error e
  | Except.ok pds => Except.ok ⟨constraints, pds⟩

/-- `ConstraintsCache::insert`, state-passing: the returned cache is the new
state (unchanged on error). -/
def insert (decode : Tx → Except Eip2718Error (Nat × Nat)) (cache : Cache)
    (slot : Nat) (constraints : ConstraintsMessage) : Except CacheError Unit × Cache :=
  match conflicts_with cache slot constraints with
  | some conflict => (Except.error (CacheError.conflict conflict), cache)
  | none =>
    match tryFromMessage decode constraints with
    | Except.error e => (Except.error (CacheError.decode e), cache)
    | Except.ok message_with_data => (Except.ok (), cachePush cache slot message_with_data)

/-- `ConstraintsCache::remove_before`: `retain(|k, _| *k >= slot)`. -/
def remove_before (cache : Cache) (slot : Nat) : Cache :=
  cache.filter (fun kv => decide (slot ≤ kv.1))

/-- `ConstraintsCache::remove`, state-passing: returns the taken-out sequence
and the new state. -/
def remove (cache : Cache) (slot : Nat) :
    Option (List ConstraintsWithProofData) × Cache :=
  (cacheGet cache slot, cacheErase cache slot)

/-- The phase of `insert` that runs after the conflict check: decoding, then the
write under the write lock. `checked` is the result the conflict check returned
when it ran (possibly against an older state: the read lock is released before
the write lock is taken). -/
def insertAfterCheck (decode : Tx → Except Eip2718Error (Nat × Nat)) (cache : Cache)
    (slot : Nat) (constraints : ConstraintsMessage) (checked : Option Conflict) :
    Except CacheError Unit × Cache :=
  match checked with
  | some conflict => (Except.error (CacheError.conflict conflict), cache)
  | none =>
    match tryFromMessage decode constraints with
    | Except.error e => (Except.error (CacheError.decode e), cache)
    | Except.ok message_with_data => (Except.ok (), cachePush cache slot message_with_data)

/-- The interleaving of two concurrent `insert` calls for the same slot in which
both conflict checks (each under a read lock that `insert` releases before taking
the write lock) run against the initial state before either write phase runs;
the two write phases then run in order. Returns both results and the final cache. -/
def insertRaced (decode : Tx → Except Eip2718Error (Nat × Nat)) (cache : Cache)
    (slot : Nat) (m1 m2 : ConstraintsMessage) :
    (Except CacheError Unit × Except CacheError Unit) × Cache :=
  let chk1 := conflicts_with cache slot m1
  let chk2 := conflicts_with cache slot m2
  let step1 := insertAfterCheck decode cache slot m1 chk1
  let step2 := insertAfterCheck decode step1.2 slot m2 chk2
  ((step1.1, step2.1), step2.2)

/-- The operations a client can perform on the cache, for trace-based claims. -/
inductive CacheOp where
  | ins (slot : Nat) (m : ConstraintsMessage)
  | rem (slot : Nat)
  | remBefore (slot : Nat)

/-- One cache operation applied to a state. -/
def applyOp (decode : Tx → Except Eip2718Error (Nat × Nat)) (c : Cache) : CacheOp → Cache
  | CacheOp.ins s m => (insert decode c s m).2
  | CacheOp.rem s => (remove c s).2
  | CacheOp.remBefore s => remove_before c s

/-- A sequential trace of cache operations run from a state. -/
def runOps (decode : Tx → Except Eip2718Error (Nat × Nat)) (c : Cache) :
    List CacheOp → Cache
  | [] => c
  | op :: ops => runOps decode (applyOp decode c op) ops

/-- Following the words of the spec (claim C6): one successful insertion step for
a slot, described on the slot's own history: the message is appended (decoded)
when it neither conflicts with the messages accumulated since the last removal
nor fails to decode; otherwise the insertion failed and the history is unchanged. -/
def accInsert (decode : Tx → Except Eip2718Error (Nat × Nat))
    (acc : List ConstraintsWithProofData) (m : ConstraintsMessage) :
    List ConstraintsWithProofData :=
  match acc.findSome? (entryConflict m) with
  | some _ => acc
  | none =>
    match tryFromMessage decode m with
    | Except.error _ => acc
    | Except.ok d => acc ++ [d]

/-- Following the words of the spec (claim C6): the sequence of messages
successfully inserted for slot `s` since the last removal of `s` (either an
explicit `remove s` or a `remove_before` sweep covering `s`), in insertion
order, starting from accumulated history `acc`. -/
def insertedSince (decode : Tx → Except Eip2718Error (Nat × Nat)) (s : Nat) :
    List CacheOp → List ConstraintsWithProofData → List ConstraintsWithProofData
  | [], acc => acc
  | op :: ops, acc =>
    insertedSince decode s ops
      (match op with
       | CacheOp.ins s' m => if s' = s then accInsert decode acc m else acc
       | CacheOp.rem s' => if s' = s then [] else acc
       | CacheOp.remBefore s0 => if s < s0 then [] else acc)

/-- Following the words of the spec (claim C3): scan the stored entries for the
slot in insertion order and return the first conflict found; within each entry,
the top-of-block condition is checked before the duplicate-transaction one. -/
def specScanConflicts (m : ConstraintsMessage) :
    List ConstraintsWithProofData → Option Conflict
  | [] => none
  | saved :: rest =>
    if m.top = true ∧ saved.message.top = true then some Conflict.topOfBlock
    else if ∃ tx ∈ m.transactions, tx ∈ saved.message.transactions then
      some Conflict.duplicateTransaction
    else specScanConflicts m rest

/-- Following the words of the spec (claim C3): the first conflict over the
slot's stored entries (none when the slot is absent). -/
def specFirstConflict (cache : Cache) (slot : Nat) (m : ConstraintsMessage) :
    Option Conflict :=
  specScanConflicts m ((cacheGet cache slot).getD [])

/-- At most one stored message for a slot has the top-of-block flag set, and the
multiset of raw transaction bytes across all stored messages has no duplicates
(claim C2's slot invariant). -/
def GoodSlot (l : List ConstraintsWithProofData) : Prop :=
  l.Pairwise (fun a b => ¬(a.message.top = true ∧ b.message.top = true)) ∧
  (l.flatMap (fun e => e.message.transactions)).Nodup

end Bolt

namespace Sidecar

/-- Consensus fork versions (`ethereum_consensus::Fork`). -/
inductive Fork where
  | phase0
  | altair
  | bellatrix
  | capella
  | deneb
deriving DecidableEq

/-- The fork's display string (`Fork::to_string`). -/
def Fork.name : Fork → String
  | Fork.phase0 => "phase0"
  | Fork.altair => "altair"
  | Fork.bellatrix => "bellatrix"
  | Fork.capella => "capella"
  | Fork.deneb => "deneb"

/-- A parsed signed builder bid, kept abstract. -/
abbrev SignedBuilderBid := Nat

/-- The relay's structured error body `{code, message}`. -/
structure ErrorResponse where
  code : Nat
  message : String
deriving DecidableEq

/-- Modelled from the spec: the relay-client error taxonomy (`api/spec.rs` is not
in the embedded sources): per-operation failures carrying the relay's structured
error, `InvalidFork(version)`, and a distinct variant for body-deserialization
failures (surfaced by the `?` on `response.json()`). -/
inductive BuilderApiError where
  | failedRegisteringValidators (e : ErrorResponse)
  | failedGettingHeader (e : ErrorResponse)
  | failedDelegating (e : ErrorResponse)
  | invalidFork (version : String)
  | deserialization
deriving DecidableEq

/-- Modelled from the spec: a relay HTTP response to `header_with_proofs`. The
body's versioned envelope (`VersionedValue<SignedBuilderBid>`) deserializes only
when both its version field and its bid payload deserialize, so each is an
optional parsed value; `error_body` is the parse of the body as the structured
error form used on non-200 statuses. -/
structure HeaderResponse where
  status : Nat
  version_field : Option Fork
  bid_field : Option SignedBuilderBid
  error_body : Option ErrorResponse
deriving DecidableEq

/-- Deserializing the body as `VersionedValue<SignedBuilderBid>`: version and
bid are parsed together; either failing fails the whole envelope. -/
def parseVersionedBid (r : HeaderResponse) :
    Except Unit (Fork × SignedBuilderBid) :=
  match r.version_field, r.bid_field with
  | some v, some b => Except.ok (v, b)
  | _, _ => Except.error ()

/-- `ConstraintsClient::get_header_with_proofs`, as a function of the relay's
response: a non-200 status parses the error body into `FailedGettingHeader`; a
200 status parses the full versioned envelope (version and bid together) and
only then rejects a version other than `Deneb` with `InvalidFork`. -/
def get_header_with_proofs (r : HeaderResponse) :
    Except BuilderApiError (Fork × SignedBuilderBid) :=
  if r.status ≠ 200 then
    match r.error_body with
    | none => Except.error BuilderApiError.deserialization
    | some e => Except.error (BuilderApiError.failedGettingHeader e)
  else
    match parseVersionedBid r with
    | Except.error _ => Except.error BuilderApiError.deserialization
    | Except.ok (v, b) =>
      if v ≠ Fork.deneb then Except.error (BuilderApiError.invalidFork v.name)
      else Except.ok (v, b)

/-- The delegation message binding a validator pubkey to a delegatee pubkey. -/
structure DelegationMessage where
  validator_pubkey : Nat
  delegatee_pubkey : Nat
deriving DecidableEq

/-- A signed delegation (signature abstracted away; lookups use `message`). -/
structure SignedDelegation where
  message : DelegationMessage
deriving DecidableEq

/-- The registration message; only `public_key` is read by the embedded code. -/
structure RegistrationMessage where
  public_key : Nat
deriving DecidableEq

/-- A signed validator registration. -/
structure SignedValidatorRegistration where
  message : RegistrationMessage
deriving DecidableEq

/-- The relay's HTTP response to the registration POST. -/
structure RegistrationsResponse where
  status : Nat
  error_body : Option ErrorResponse
deriving DecidableEq

/-- `ConstraintsClient::register_validators`, as a function of the client's
stored delegations, the incoming registrations, the relay's response, and the
outcome of the `delegate` side-effect. The second component records the
argument `delegate` was invoked on (`none` when it was not invoked); the
`delegate` failure is logged and discarded, so the result never depends on
`delegateOutcome`. -/
def register_validators (delegations : List SignedDelegation)
    (registrations : List SignedValidatorRegistration)
    (resp : RegistrationsResponse)
    (delegateOutcome : List SignedDelegation → Except BuilderApiError Unit) :
    Except BuilderApiError Unit × Option (List SignedDelegation) :=
  if resp.status ≠ 200 then
    (match resp.error_body with
     | none => Except.error BuilderApiError.deserialization
     | some e => Except.error (BuilderApiError.failedRegisteringValidators e), none)
  else if delegations = [] then
    (Except.ok (), none)
  else
    let validator_pubkeys := registrations.map (fun r => r.message.public_key)
    let filtered_delegations := delegations.filter
      (fun d => validator_pubkeys.contains d.message.validator_pubkey)
    match delegateOutcome filtered_delegations with
    | Except.error _ => (Except.ok (), some filtered_delegations)
    | Except.ok _ => (Except.ok (), some filtered_delegations)

/-- A processor-signed commitment, kept abstract. -/
abbrev SignedCommitment := Nat

/-- The client-visible inclusion-commitment shape, kept abstract. -/
abbrev InclusionCommitment := Nat

/-- Modelled from the spec: the commitments API error type (`commitments/spec.rs`
is not in the embedded sources): `internal` is the reply-channel-drop error and
`processor code msg` stands for a rejection error produced by the processor,
surfaced as-is with its own JSON-RPC code. -/
inductive CommitmentError where
  | internal
  | processor (code : Int) (msg : String)
deriving DecidableEq

/-- Modelled from the spec: the JSON-RPC error code each error is surfaced with:
-32000 for internal errors, and a processor rejection keeps its own code. -/
def jsonRpcErrorCode : CommitmentError → Int
  | CommitmentError.internal => -32000
  | CommitmentError.processor code _ => code

/-- The observable outcome of one `request_inclusion` call: either the handler
panics (the `unwrap` on the events-channel send), or it returns a value. -/
inductive HandlerOutcome where
  | panics
  | returns (r : Except CommitmentError InclusionCommitment)

/-- `CommitmentsApiInner::request_inclusion`, as a function of the channel
outcomes: `events_closed` says whether the bounded events channel is closed (its
receiving half was dropped) when the send runs; `reply` is the one-shot reply
outcome — `none` when the sender is dropped without a send, `some r` when the
processor sends `r`. `toInclusion` is the `SignedCommitment → InclusionCommitment`
conversion (`.map(|c| c.into())`). The send result is unwrapped, so a closed
events channel panics the handler. -/
def request_inclusion (toInclusion : SignedCommitment → InclusionCommitment)
    (events_closed : Bool)
    (reply : Option (Except CommitmentError SignedCommitment)) : HandlerOutcome :=
  if events_closed then HandlerOutcome.panics
  else
    HandlerOutcome.returns
      (match reply with
       | none => Except.error CommitmentError.internal
       | some (Except.ok c) => Except.ok (toInclusion c)
       | some (Except.error e) => Except.error e)

end Sidecar

/-! ## Cache map lemmas -/

namespace Bolt

theorem cacheGet_cachePush_self (c : Cache) (s : Nat) (v : ConstraintsWithProofData) :
    cacheGet (cachePush c s v) s = some ((cacheGet c s).getD [] ++ [v]) := by
  induction c with
  | nil => simp [cachePush, cacheGet]
  | cons kv rest ih =>
    by_cases h : kv.1 = s
    · simp [cachePush, cacheGet, h]
    · simp [cachePush, cacheGet, h, ih]

theorem cacheGet_cachePush_ne (c : Cache) (s s' : Nat) (v : ConstraintsWithProofData)
    (h : s' ≠ s) : cacheGet (cachePush c s v) s' = cacheGet c s' := by
  induction c with
  | nil =>
    simp only [cachePush, cacheGet]
    rw [if_neg (Ne.symm h)]
  | cons kv rest ih =>
    by_cases hk : kv.1 = s
    · simp only [cachePush, if_pos hk, cacheGet]
      rw [if_neg (by omega), if_neg (by omega)]
    · simp only [cachePush, if_neg hk, cacheGet]
      by_cases hk' : kv.1 = s'
      · rw [if_pos hk', if_pos hk']
      · rw [if_neg hk', if_neg hk', ih]

theorem cacheGet_cacheErase_self (c : Cache) (s : Nat) :
    cacheGet (cacheErase c s) s = none := by
  induction c with
  | nil => rfl
  | cons kv rest ih =>
    by_cases hk : kv.1 = s
    · simpa [cacheErase, List.filter_cons, hk] using ih
    · simpa [cacheErase, List.filter_cons, hk, cacheGet] using ih

theorem cacheGet_cacheErase_ne (c : Cache) (s s' : Nat) (h : s' ≠ s) :
    cacheGet (cacheErase c s) s' = cacheGet c s' := by
  induction c with
  | nil => rfl
  | cons kv rest ih =>
    by_cases hk : kv.1 = s
    · simpa [cacheErase, List.filter_cons, hk, cacheGet, Ne.symm h] using ih
    · by_cases hk' : kv.1 = s'
      · simp [cacheErase, List.filter_cons, hk, cacheGet, hk', h]
      · simpa [cacheErase, List.filter_cons, hk, cacheGet, hk'] using ih

theorem cacheGet_remove_before (c : Cache) (s0 s : Nat) :
    cacheGet (remove_before c s0) s = if s0 ≤ s then cacheGet c s else none := by
  induction c with
  | nil => simp [remove_before, cacheGet]
  | cons kv rest ih =>
    by_cases hk : s0 ≤ kv.1
    · by_cases hs : kv.1 = s
      · subst hs
        simp [remove_before, List.filter_cons, hk, cacheGet]
      · simpa [remove_before, List.filter_cons, hk, cacheGet, hs] using ih
    · by_cases hs : kv.1 = s
      · subst hs
        rw [if_neg hk] at ih
        simpa [remove_before, List.filter_cons, hk] using ih
      · simpa [remove_before, List.filter_cons, hk, cacheGet, hs] using ih

end Bolt

/-! ## Claim theorems: pruning, commitments server, relay client -/

namespace Bolt

/-- Claim C7: `remove_before s0` deletes exactly the entries with slot key
strictly less than `s0`: afterwards every key below `s0` is absent, and every
slot key at least `s0` maps to exactly what it mapped to before the call. -/
theorem remove_before_deletes_exactly_older (c : Cache) (s0 : Nat) :
    (∀ s, s < s0 → cacheGet (remove_before c s0) s = none) ∧
    (∀ s, s0 ≤ s → cacheGet (remove_before c s0) s = cacheGet c s) := by
  refine ⟨fun s hs => ?_, fun s hs => ?_⟩
  · rw [cacheGet_remove_before, if_neg (by omega)]
  · rw [cacheGet_remove_before, if_pos hs]

theorem remove_before_deletes_exactly_older_witness :
    cacheGet (remove_before [(5, []), (9, [])] 8) 5 = none ∧
    cacheGet (remove_before [(5, []), (9, [])] 8) 9 = cacheGet [(5, []), (9, [])] 9 :=
  ⟨(remove_before_deletes_exactly_older [(5, []), (9, [])] 8).1 5 (by decide),
   (remove_before_deletes_exactly_older [(5, []), (9, [])] 8).2 9 (by decide)⟩

end Bolt

namespace Sidecar

/-- Claim C9: `request_inclusion` (past a successful events-channel send) maps a
dropped reply channel to the internal error, whose JSON-RPC code is -32000; a
processor reply `Ok c` to the client-visible inclusion-commitment shape of `c`;
and a processor reply `Err e` to `e` unchanged. -/
theorem request_inclusion_reply_semantics
    (toInclusion : SignedCommitment → InclusionCommitment) :
    request_inclusion toInclusion false none =
      HandlerOutcome.returns (Except.error CommitmentError.internal) ∧
    jsonRpcErrorCode CommitmentError.internal = -32000 ∧
    (∀ c, request_inclusion toInclusion false (some (Except.ok c)) =
      HandlerOutcome.returns (Except.ok (toInclusion c))) ∧
    (∀ e, request_inclusion toInclusion false (some (Except.error e)) =
      HandlerOutcome.returns (Except.error e)) :=
  ⟨rfl, rfl, fun _ => rfl, fun _ => rfl⟩

/-- Claim C10: when the events channel is closed (the processor has dropped the
receiving half), `request_inclusion` panics on the unwrapped send for every
possible reply behavior, instead of returning any error value. -/
theorem request_inclusion_panics_when_events_closed
    (toInclusion : SignedCommitment → InclusionCommitment)
    (reply : Option (Except CommitmentError SignedCommitment)) :
    request_inclusion toInclusion true reply = HandlerOutcome.panics := rfl

/-- Claim C5 as stated is false: a 200 response whose version field is a
non-Deneb fork but whose bid payload does not deserialize makes
`get_header_with_proofs` return the deserialization error, not
`InvalidFork("capella")` — the bid is parsed (as part of the envelope) before
the fork check. -/
theorem get_header_with_proofs_claim_counterexample :
    get_header_with_proofs ⟨200, some Fork.capella, none, none⟩ =
      Except.error BuilderApiError.deserialization ∧
    (Except.error BuilderApiError.deserialization :
        Except BuilderApiError (Fork × SignedBuilderBid)) ≠
      Except.error (BuilderApiError.invalidFork (Fork.name Fork.capella)) := by
  refine ⟨rfl, fun h => ?_⟩
  injection h with h'
  exact BuilderApiError.noConfusion h'

/-- Claim C5, amended: whenever the 200 response deserializes as a versioned
signed bid (version and bid are parsed together, before the fork check) whose
version differs from the expected Deneb fork, the call returns
`InvalidFork(version_string)`; when the version is Deneb it returns the parsed
versioned signed bid. -/
theorem get_header_with_proofs_fork_guard (r : HeaderResponse) (v : Fork)
    (b : SignedBuilderBid) (h200 : r.status = 200)
    (hparse : parseVersionedBid r = Except.ok (v, b)) :
    (v ≠ Fork.deneb →
      get_header_with_proofs r = Except.error (BuilderApiError.invalidFork v.name)) ∧
    (v = Fork.deneb → get_header_with_proofs r = Except.ok (v, b)) := by
  constructor <;> intro hv <;> simp [get_header_with_proofs, h200, hparse, hv]

theorem get_header_with_proofs_fork_guard_witness :
    get_header_with_proofs ⟨200, some Fork.capella, some 7, none⟩ =
      Except.error (BuilderApiError.invalidFork (Fork.name Fork.capella)) :=
  (get_header_with_proofs_fork_guard ⟨200, some Fork.capella, some 7, none⟩
    Fork.capella 7 rfl rfl).1 (by decide)

/-- Claim C8 as stated is false: when the stored delegations list is empty,
`register_validators` takes the early-return branch and never invokes
`delegate`, although the claim requires `delegate` to be invoked on the
(empty) selection after a 200. -/
theorem register_validators_claim_counterexample :
    (register_validators [] [⟨⟨1⟩⟩] ⟨200, none⟩ (fun _ => Except.ok ())).2 = none ∧
    (none : Option (List SignedDelegation)) ≠ some [] := by
  refine ⟨rfl, fun h => ?_⟩
  exact Option.noConfusion h

/-- Claim C8, amended: on a 200 from the relay, if the stored delegations list
is nonempty, `register_validators` invokes `delegate` on exactly the stored
delegations whose validator pubkey is among the public keys of the incoming
registrations; if the stored list is empty the `delegate` call is skipped. In
either case the result is `Ok` — independently of the `delegate` outcome,
whose failure is logged, not propagated. -/
theorem register_validators_delegation_semantics (delegations : List SignedDelegation)
    (registrations : List SignedValidatorRegistration) (resp : RegistrationsResponse)
    (delegateOutcome : List SignedDelegation → Except BuilderApiError Unit)
    (h200 : resp.status = 200) :
    (register_validators delegations registrations resp delegateOutcome).1 =
      Except.ok () ∧
    (register_validators delegations registrations resp delegateOutcome).2 =
      (if delegations = [] then none
       else some (delegations.filter (fun d =>
         (registrations.map (fun r => r.message.public_key)).contains
           d.message.validator_pubkey))) := by
  have hne : ¬(resp.status ≠ 200) := fun hx => hx h200
  by_cases hd : delegations = []
  · simp [register_validators, h200, hd]
  · simp only [register_validators, if_neg hne, if_neg hd]
    split <;> exact ⟨rfl, rfl⟩

theorem register_validators_delegation_semantics_witness :
    (register_validators [⟨⟨1, 2⟩⟩] [⟨⟨1⟩⟩] ⟨200, none⟩
        (fun _ => Except.error (BuilderApiError.failedDelegating ⟨400, "err"⟩))).1 =
      Except.ok () ∧
    (register_validators [⟨⟨1, 2⟩⟩] [⟨⟨1⟩⟩] ⟨200, none⟩
        (fun _ => Except.error (BuilderApiError.failedDelegating ⟨400, "err"⟩))).2 =
      (if ([⟨⟨1, 2⟩⟩] : List SignedDelegation) = [] then none
       else some (([⟨⟨1, 2⟩⟩] : List SignedDelegation).filter (fun d =>
         (([⟨⟨1⟩⟩] : List SignedValidatorRegistration).map
           (fun r => r.message.public_key)).contains d.message.validator_pubkey))) :=
  register_validators_delegation_semantics [⟨⟨1, 2⟩⟩] [⟨⟨1⟩⟩] ⟨200, none⟩
    (fun _ => Except.error (BuilderApiError.failedDelegating ⟨400, "err"⟩)) rfl

end Sidecar

/-! ## Claim theorems: conflict detection and insertion -/

namespace Bolt

theorem entryConflict_eq_spec (m : ConstraintsMessage) (saved : ConstraintsWithProofData) :
    entryConflict m saved =
      (if m.top = true ∧ saved.message.top = true then some Conflict.topOfBlock
       else if ∃ tx ∈ m.transactions, tx ∈ saved.message.transactions then
         some Conflict.duplicateTransaction
       else none) := by
  have hb2 : (m.transactions.any
      (fun tx => saved.message.transactions.any (fun existing => tx == existing)) = true) ↔
      ∃ tx ∈ m.transactions, tx ∈ saved.message.transactions := by
    simp [List.any_eq_true]
  have hb1 : ((m.top && saved.message.top) = true) ↔
      (m.top = true ∧ saved.message.top = true) := by
    simp
  simp only [entryConflict]
  rw [if_congr hb1 rfl (if_congr hb2 rfl rfl)]

theorem findSome?_entryConflict_eq_specScan (m : ConstraintsMessage)
    (l : List ConstraintsWithProofData) :
    l.findSome? (entryConflict m) = specScanConflicts m l := by
  induction l with
  | nil => rfl
  | cons a l ih =>
    rw [List.findSome?_cons, entryConflict_eq_spec]
    by_cases h1 : m.top = true ∧ a.message.top = true
    · simp [specScanConflicts, h1]
    · by_cases h2 : ∃ tx ∈ m.transactions, tx ∈ a.message.transactions
      · simp [specScanConflicts, h1, h2]
      · simp [specScanConflicts, h1, h2, ih]

theorem specScan_eq_none_iff (m : ConstraintsMessage) (l : List ConstraintsWithProofData) :
    specScanConflicts m l = none ↔
      ∀ saved ∈ l, ¬(m.top = true ∧ saved.message.top = true) ∧
        ¬∃ tx ∈ m.transactions, tx ∈ saved.message.transactions := by
  induction l with
  | nil => simp [specScanConflicts]
  | cons a l ih =>
    by_cases h1 : m.top = true ∧ a.message.top = true
    · simp only [specScanConflicts, if_pos h1]
      constructor
      · intro h
        exact Option.noConfusion h
      · intro h
        exact absurd h1 (h a (List.mem_cons_self a l)).1
    · by_cases h2 : ∃ tx ∈ m.transactions, tx ∈ a.message.transactions
      · simp only [specScanConflicts, if_neg h1, if_pos h2]
        constructor
        · intro h
          exact Option.noConfusion h
        · intro h
          exact absurd h2 (h a (List.mem_cons_self a l)).2
      · simp only [specScanConflicts, if_neg h1, if_neg h2]
        rw [ih, List.forall_mem_cons]
        constructor
        · intro h
          exact ⟨⟨h1, h2⟩, h⟩
        · exact fun h => h.2

theorem conflicts_with_eq_specScan (c : Cache) (slot : Nat) (m : ConstraintsMessage) :
    conflicts_with c slot m = specScanConflicts m ((cacheGet c slot).getD []) := by
  cases hg : cacheGet c slot with
  | none => simp [conflicts_with, hg, specScanConflicts]
  | some l => simp [conflicts_with, hg, findSome?_entryConflict_eq_specScan]

/-- Claim C3: `conflicts_with` is a pure function of the cache state and the
message; it returns the first conflict found scanning the slot's stored entries
in insertion order, checking top-of-block before duplicates within each entry
(so when both kinds of conflict are present, the first one found wins); and it
returns none exactly when neither conflict condition holds — no stored entry
shares the top-of-block flag with an incoming top-of-block message and no
incoming raw transaction is bytewise equal to an already-stored one. -/
theorem conflicts_with_first_conflict (c : Cache) (slot : Nat) (m : ConstraintsMessage) :
    conflicts_with c slot m = specFirstConflict c slot m ∧
    (conflicts_with c slot m = none ↔
      (¬(m.top = true ∧ ∃ e ∈ (cacheGet c slot).getD [], e.message.top = true) ∧
       ¬∃ tx ∈ m.transactions, ∃ e ∈ (cacheGet c slot).getD [],
          tx ∈ e.message.transactions)) := by
  have hmain := conflicts_with_eq_specScan c slot m
  refine ⟨hmain.trans rfl, ?_⟩
  rw [hmain, specScan_eq_none_iff]
  constructor
  · intro h
    constructor
    · rintro ⟨ht, e, he, het⟩
      exact (h e he).1 ⟨ht, het⟩
    · rintro ⟨tx, htx, e, he, hmem⟩
      exact (h e he).2 ⟨tx, htx, hmem⟩
  · rintro ⟨h1, h2⟩ e he
    exact ⟨fun hb => h1 ⟨hb.1, e, he, hb.2⟩,
           fun hb => h2 ⟨hb.choose, hb.choose_spec.1, e, he, hb.choose_spec.2⟩⟩

/-- Claim C4: `insert` returns the conflict error exactly when `conflicts_with`
finds a conflict and the decode error exactly when decoding fails, and in both
error cases the cache is completely unchanged; on success the decoded entry is
appended to the slot's sequence (created if absent). -/
theorem insert_error_semantics (decode : Tx → Except Eip2718Error (Nat × Nat))
    (c : Cache) (slot : Nat) (m : ConstraintsMessage) :
    (∀ cf, conflicts_with c slot m = some cf →
      insert decode c slot m = (Except.error (CacheError.conflict cf), c)) ∧
    (∀ e, conflicts_with c slot m = none → tryFromMessage decode m = Except.error e →
      insert decode c slot m = (Except.error (CacheError.decode e), c)) ∧
    (∀ d, conflicts_with c slot m = none → tryFromMessage decode m = Except.ok d →
      insert decode c slot m = (Except.ok (), cachePush c slot d) ∧
      cacheGet (cachePush c slot d) slot = some ((cacheGet c slot).getD [] ++ [d])) := by
  refine ⟨fun cf h => ?_, fun e h1 h2 => ?_, fun d h1 h2 => ?_⟩
  · simp [insert, h]
  · simp [insert, h1, h2]
  · exact ⟨by simp [insert, h1, h2], cacheGet_cachePush_self c slot d⟩

theorem insert_error_semantics_witness :
    insert (fun t => Except.ok (t.length, 0)) [] 0 ⟨1, 0, true, [[7]]⟩ =
      (Except.ok (), cachePush [] 0 ⟨⟨1, 0, true, [[7]]⟩, [(1, 0)]⟩) ∧
    cacheGet (cachePush [] 0 ⟨⟨1, 0, true, [[7]]⟩, [(1, 0)]⟩) 0 =
      some ((cacheGet ([] : Cache) 0).getD [] ++ [⟨⟨1, 0, true, [[7]]⟩, [(1, 0)]⟩]) :=
  (insert_error_semantics (fun t => Except.ok (t.length, 0)) [] 0 ⟨1, 0, true, [[7]]⟩).2.2
    ⟨⟨1, 0, true, [[7]]⟩, [(1, 0)]⟩ rfl rfl

end Bolt

/-! ## Claim theorems: insertion atomicity and the slot invariant -/

namespace Bolt

/-- Claim C1 fails on the code: `insert` runs `conflicts_with` under a read lock
that it releases before taking the write lock, and the write path never
re-checks for conflicts. In the interleaving where both conflict checks complete
against the initial state before either write runs, two identical top-of-block
insertions for slot 0 both return Ok, and the final state stores the same
transaction twice and two top-of-block entries — a state a sequential second
insert would have rejected (last conjunct). -/
theorem insert_check_then_write_race :
    insertRaced (fun t => Except.ok (t.length, 0)) [] 0
        ⟨1, 0, true, [[7]]⟩ ⟨1, 0, true, [[7]]⟩ =
      ((Except.ok (), Except.ok ()),
       [(0, [⟨⟨1, 0, true, [[7]]⟩, [(1, 0)]⟩, ⟨⟨1, 0, true, [[7]]⟩, [(1, 0)]⟩])]) ∧
    ¬ GoodSlot [⟨⟨1, 0, true, [[7]]⟩, [(1, 0)]⟩, ⟨⟨1, 0, true, [[7]]⟩, [(1, 0)]⟩] ∧
    conflicts_with [(0, [⟨⟨1, 0, true, [[7]]⟩, [(1, 0)]⟩])] 0 ⟨1, 0, true, [[7]]⟩ =
      some Conflict.topOfBlock := by
  refine ⟨rfl, fun h => ?_, rfl⟩
  have hnd : ([[7], [7]] : List Tx).Nodup := h.2
  exact absurd hnd (by decide)

/-- Claim C2 as stated is false: a single successful `insert` of a message whose
own transaction list repeats a transaction (never compared against itself by
`conflicts_with`) leaves the slot with a duplicated raw transaction. -/
theorem slot_invariant_claim_counterexample :
    insert (fun t => Except.ok (t.length, 0)) [] 0 ⟨1, 0, false, [[7], [7]]⟩ =
      (Except.ok (), [(0, [⟨⟨1, 0, false, [[7], [7]]⟩, [(1, 0), (1, 0)]⟩])]) ∧
    ¬ GoodSlot [⟨⟨1, 0, false, [[7], [7]]⟩, [(1, 0), (1, 0)]⟩] := by
  refine ⟨rfl, fun h => ?_⟩
  have hnd : ([[7], [7]] : List Tx).Nodup := h.2
  exact absurd hnd (by decide)

end Bolt

namespace Bolt

theorem conflicts_with_none_sound (c : Cache) (slot : Nat) (m : ConstraintsMessage)
    (h : conflicts_with c slot m = none) :
    ∀ saved ∈ (cacheGet c slot).getD [], ¬(m.top = true ∧ saved.message.top = true) ∧
      ¬∃ tx ∈ m.transactions, tx ∈ saved.message.transactions := by
  rw [conflicts_with_eq_specScan, specScan_eq_none_iff] at h
  exact h

theorem goodSlot_insert (decode : Tx → Except Eip2718Error (Nat × Nat)) (c : Cache)
    (slot : Nat) (m : ConstraintsMessage) (hnodup : m.transactions.Nodup)
    (hgood : ∀ s l, cacheGet c s = some l → GoodSlot l) :
    ∀ s l, cacheGet (insert decode c slot m).2 s = some l → GoodSlot l := by
  intro s l hl
  rcases hcf : conflicts_with c slot m with _ | cf
  · rcases htf : tryFromMessage decode m with e | d
    · simp only [insert, hcf, htf] at hl
      exact hgood s l hl
    · simp only [insert, hcf, htf] at hl
      by_cases hs : s = slot
      · subst hs
        rw [cacheGet_cachePush_self] at hl
        injection hl with hl2
        subst hl2
        have hdm : d.message = m := by
          unfold tryFromMessage at htf
          rcases hdt : decodeTxs decode m.transactions with e | pds
          · rw [hdt] at htf
            exact absurd htf (by simp)
          · rw [hdt] at htf
            injection htf with h
            rw [← h]
        have hold : GoodSlot ((cacheGet c s).getD []) := by
          rcases hg : cacheGet c s with _ | old
          · exact ⟨List.Pairwise.nil, List.nodup_nil⟩
          · simpa using hgood s old hg
        have hsaved := conflicts_with_none_sound c s m hcf
        constructor
        · rw [List.pairwise_append]
          refine ⟨hold.1, List.pairwise_singleton _ _, ?_⟩
          intro a ha b hb
          have hb' : b = d := List.mem_singleton.mp hb
          subst hb'
          rw [hdm]
          intro hcontra
          exact (hsaved a ha).1 ⟨hcontra.2, hcontra.1⟩
        · rw [List.flatMap_append]
          have hfd : List.flatMap [d] (fun e => e.message.transactions) =
              m.transactions := by
            simp [hdm]
          rw [hfd, List.nodup_append]
          refine ⟨hold.2, hnodup, ?_⟩
          intro a ha ham
          rcases List.mem_flatMap.mp ha with ⟨e, he, hae⟩
          exact (hsaved e he).2 ⟨a, ham, hae⟩
      · rw [cacheGet_cachePush_ne c slot s d hs] at hl
        exact hgood s l hl
  · simp only [insert, hcf] at hl
    exact hgood s l hl

theorem goodSlot_applyOp (decode : Tx → Except Eip2718Error (Nat × Nat)) (c : Cache)
    (op : CacheOp) (hnodup : ∀ s m, op = CacheOp.ins s m → m.transactions.Nodup)
    (hgood : ∀ s l, cacheGet c s = some l → GoodSlot l) :
    ∀ s l, cacheGet (applyOp decode c op) s = some l → GoodSlot l := by
  cases op with
  | ins s' m => exact goodSlot_insert decode c s' m (hnodup s' m rfl) hgood
  | rem s' =>
    intro s l hl
    simp only [applyOp, remove] at hl
    by_cases hs : s = s'
    · subst hs
      rw [cacheGet_cacheErase_self] at hl
      exact absurd hl (by simp)
    · rw [cacheGet_cacheErase_ne c s' s hs] at hl
      exact hgood s l hl
  | remBefore s0 =>
    intro s l hl
    simp only [applyOp] at hl
    rw [cacheGet_remove_before] at hl
    by_cases hs : s0 ≤ s
    · rw [if_pos hs] at hl
      exact hgood s l hl
    · rw [if_neg hs] at hl
      exact absurd hl (by simp)

theorem goodSlot_runOps (decode : Tx → Except Eip2718Error (Nat × Nat))
    (ops : List CacheOp)
    (hnodup : ∀ s m, CacheOp.ins s m ∈ ops → m.transactions.Nodup) :
    ∀ c, (∀ s l, cacheGet c s = some l → GoodSlot l) →
      ∀ s l, cacheGet (runOps decode c ops) s = some l → GoodSlot l := by
  induction ops with
  | nil =>
    intro c hgood
    exact hgood
  | cons op ops ih =>
    have hnodup' : ∀ s m, CacheOp.ins s m ∈ ops → m.transactions.Nodup :=
      fun s m hm => hnodup s m (List.mem_cons_of_mem _ hm)
    intro c hgood
    simp only [runOps]
    exact ih hnodup' _
      (goodSlot_applyOp decode c op
        (fun s m hop => hnodup s m (by rw [← hop]; exact List.mem_cons_self _ _)) hgood)

/-- Claim C2, amended: for every slot and every sequential trace of cache
operations from the empty cache in which each inserted message's own transaction
list is duplicate-free, every stored slot sequence has at most one top-of-block
message and no duplicate raw transaction bytes across its stored messages. (The
amendment adds the per-message duplicate-freedom precondition, forced by the
counterexample: `conflicts_with` never compares an incoming message against
itself; the at-most-one-top-of-block half needs no precondition.) -/
theorem insert_slot_invariant (decode : Tx → Except Eip2718Error (Nat × Nat))
    (ops : List CacheOp)
    (hnodup : ∀ s m, CacheOp.ins s m ∈ ops → m.transactions.Nodup) :
    ∀ s l, cacheGet (runOps decode [] ops) s = some l → GoodSlot l :=
  goodSlot_runOps decode ops hnodup []
    (fun s l h => absurd h (by simp [cacheGet]))

theorem insert_slot_invariant_witness :
    GoodSlot [⟨⟨1, 0, true, [[7]]⟩, [(1, 0)]⟩] :=
  insert_slot_invariant (fun t => Except.ok (t.length, 0))
    [CacheOp.ins 0 ⟨1, 0, true, [[7]]⟩]
    (by
      intro s m hm
      simp only [List.mem_singleton] at hm
      injection hm with h1 h2
      subst h2
      decide)
    0 [⟨⟨1, 0, true, [[7]]⟩, [(1, 0)]⟩] rfl

end Bolt

namespace Bolt

theorem cacheGet_insert_ne (decode : Tx → Except Eip2718Error (Nat × Nat)) (c : Cache)
    (slot s : Nat) (m : ConstraintsMessage) (h : s ≠ slot) :
    cacheGet (insert decode c slot m).2 s = cacheGet c s := by
  rcases hcf : conflicts_with c slot m with _ | cf
  · rcases htf : tryFromMessage decode m with e | d
    · simp [insert, hcf, htf]
    · simp [insert, hcf, htf, cacheGet_cachePush_ne c slot s d h]
  · simp [insert, hcf]

theorem cacheGet_insert_self (decode : Tx → Except Eip2718Error (Nat × Nat)) (c : Cache)
    (s : Nat) (m : ConstraintsMessage) (acc : List ConstraintsWithProofData)
    (h : cacheGet c s = (if acc = [] then none else some acc)) :
    cacheGet (insert decode c s m).2 s =
      (if accInsert decode acc m = [] then none else some (accInsert decode acc m)) := by
  by_cases hacc : acc = []
  · subst hacc
    rw [if_pos rfl] at h
    have hcf : conflicts_with c s m = none := by
      simp [conflicts_with, h]
    rcases htf : tryFromMessage decode m with e | d
    · simp [insert, hcf, htf, accInsert, h]
    · simp [insert, hcf, htf, accInsert, cacheGet_cachePush_self, h]
  · rw [if_neg hacc] at h
    have hcf : conflicts_with c s m = acc.findSome? (entryConflict m) := by
      simp [conflicts_with, h]
    rcases hfs : acc.findSome? (entryConflict m) with _ | cf
    · rw [hfs] at hcf
      rcases htf : tryFromMessage decode m with e | d
      · simp [insert, hcf, htf, accInsert, hfs, h, hacc]
      · have happ : acc ++ [d] ≠ [] := by simp
        simp [insert, hcf, htf, accInsert, hfs, cacheGet_cachePush_self, h, happ]
    · rw [hfs] at hcf
      simp [insert, hcf, accInsert, hfs, h, hacc]

theorem insertedSince_tracks (decode : Tx → Except Eip2718Error (Nat × Nat)) (s : Nat) :
    ∀ (ops : List CacheOp) (c : Cache) (acc : List ConstraintsWithProofData),
      cacheGet c s = (if acc = [] then none else some acc) →
      cacheGet (runOps decode c ops) s =
        (if insertedSince decode s ops acc = [] then none
         else some (insertedSince decode s ops acc)) := by
  intro ops
  induction ops with
  | nil =>
    intro c acc h
    exact h
  | cons op ops ih =>
    intro c acc h
    cases op with
    | ins s' m =>
      simp only [runOps, applyOp, insertedSince]
      by_cases hs : s' = s
      · rw [if_pos hs]
        subst hs
        exact ih _ _ (cacheGet_insert_self decode c s' m acc h)
      · rw [if_neg hs]
        refine ih _ _ ?_
        rw [cacheGet_insert_ne decode c s' s m (fun hh => hs hh.symm)]
        exact h
    | rem s' =>
      simp only [runOps, applyOp, insertedSince, remove]
      by_cases hs : s' = s
      · rw [if_pos hs]
        subst hs
        refine ih _ _ ?_
        rw [cacheGet_cacheErase_self]
        simp
      · rw [if_neg hs]
        refine ih _ _ ?_
        rw [cacheGet_cacheErase_ne c s' s (fun hh => hs hh.symm)]
        exact h
    | remBefore s0 =>
      simp only [runOps, applyOp, insertedSince]
      by_cases hs : s < s0
      · rw [if_pos hs]
        refine ih _ _ ?_
        rw [cacheGet_remove_before, if_neg (by omega)]
        simp
      · rw [if_neg hs]
        refine ih _ _ ?_
        rw [cacheGet_remove_before, if_pos (by omega)]
        exact h

/-- Claim C6: for every slot `s` and every sequential trace of cache operations
from the empty cache, `remove s` returns Some of exactly the sequence of
messages successfully inserted for `s` since the last removal of `s` (an
explicit `remove s` or a `remove_before` sweep covering `s`), in insertion
order — None when there are no such messages — and afterwards slot `s` is
absent from the cache. -/
theorem remove_returns_inserted_since (decode : Tx → Except Eip2718Error (Nat × Nat))
    (ops : List CacheOp) (s : Nat) :
    (remove (runOps decode [] ops) s).1 =
      (if insertedSince decode s ops [] = [] then none
       else some (insertedSince decode s ops [])) ∧
    cacheGet (remove (runOps decode [] ops) s).2 s = none := by
  constructor
  · show cacheGet (runOps decode [] ops) s = _
    exact insertedSince_tracks decode s ops [] [] (by simp [cacheGet])
  · show cacheGet (cacheErase (runOps decode [] ops) s) s = none
    exact cacheGet_cacheErase_self _ _

end Bolt
